import Mathlib

/-!
Verification development for `nirbt.py`, a command-line helper that creates
review-board review requests from local git commits.

The Python source is shallowly embedded below:
* pure string processing (the two regexes `RE_NI_GIT` and `RE_UPSTREAM`,
  Python's `str.split(sep, maxsplit)`) is translated into executable Lean
  functions over `List Char`;
* the pygit2 / review-board collaborators are modelled as an explicit
  environment (`GitEnv`) supplying the results of `revparse_single`, the
  commit walk, and the local branch list;
* fallible Python code is modelled with `Except PyExc`, where `PyExc` names
  the Python exception class that would be raised.

Collaborator semantics relied on below (pygit2 / libgit2, stable across all
pygit2 releases): `Repository.revparse_single` raises `KeyError` when the
revision does not resolve (GIT_ENOTFOUND); it never returns `None`.
Consequently the `if not commit_start: raise ValueError` guards in
`get_commits` are unreachable.  `Branch.upstream_name` raises when the branch
has no configured upstream (the source wraps the access in
`try/except Exception: pass`, so we model it as an `Option`).
-/

/-- Python exceptions that the embedded code can raise. `valueError` is the
`RangeError` of the specification, raised by the (dead) guards in
`get_commits`; `nameError` is raised when an undefined global such as
`server` or `sel_id` is evaluated. -/
inductive PyExc where
  | keyError
  | typeError
  | indexError
  | nameError
  | valueError
  deriving DecidableEq, Repr

/-! ### The `RE_NI_GIT` regex

`RE_NI_GIT = re.compile(r'git\.natinst\.com:?/(.+)\.git')`, used with
`.search`.  The pattern is: the literal host, an optional colon, a mandatory
slash, a non-empty group of non-newline characters (greedy), and the literal
`.git`; `search` tries each start position left to right. -/

def hostL : List Char := "git.natinst.com".toList

def dotGitL : List Char := ".git".toList

/-- Greedy matching of `(.+)\.git` against `t`: the group is `t.take j` for
the largest `j ≥ 1` such that the group is newline-free and `.git` follows.
`re` tries the longest group first, so we count `j` down from `t.length`. -/
def tailExtractAux : Nat → List Char → Option (List Char)
  | 0, _ => none
  | j + 1, t =>
    if ((t.take (j + 1)).all (fun c => c ≠ '\n') && dotGitL.isPrefixOf (t.drop (j + 1))) then
      some (t.take (j + 1))
    else
      tailExtractAux j t

def tailExtract (t : List Char) : Option (List Char) :=
  tailExtractAux t.length t

/-- Matching of `:?/(.+)\.git` against the text following the host.  The
regex engine first tries to consume the optional colon; if the colon is
present but no slash follows, the backtracked alternative (no colon) fails
as well, so a colon must be followed by a slash. -/
def afterHost : List Char → Option (List Char)
  | ':' :: '/' :: rest => tailExtract rest
  | '/' :: rest => tailExtract rest
  | _ => none

/-- `re.search` semantics: try to match at every start position, left to
right, and return the group of the first position that matches. -/
def searchExtract : List Char → Option (List Char)
  | [] => none
  | c :: rest =>
    match (if hostL.isPrefixOf (c :: rest) then afterHost ((c :: rest).drop 15) else none) with
    | some g => some g
    | none => searchExtract rest

/-- `RE_NI_GIT.search(url)` followed by `.group(1)`: the repository
identifier extracted from a remote URL, or `none` when the URL does not
match. -/
def reNIGitExtract (url : String) : Option String :=
  (searchExtract url.toList).map List.asString

/-! ### Remote-to-server matching: `pick_repo` and `validate_repo` -/

/-- A configured git remote (`remote.name`, `remote.url`). -/
structure Remote where
  name : String
  url : String
  deriving DecidableEq, Repr

/-- A repository record returned by the review-board server. -/
structure RBRepo where
  id : Nat
  name : String
  tool : String
  path : String
  deriving DecidableEq, Repr

/-- The `repo_names` set built by `validate_repo`: the identifiers extracted
by `RE_NI_GIT` from the configured remote URLs.  Python collects them in a
`set`; only emptiness and membership of the collection are ever used, so a
list with set-membership semantics is a faithful model. -/
def extractedNames (remotes : List Remote) : List String :=
  remotes.filterMap (fun rm => reNIGitExtract rm.url)

/-- `pick_repo(selection, rb_repos)`.  When `selection` is empty the source
evaluates the undefined global `server` while building the error message,
which raises `NameError` before anything is printed; when no repository
matches it falls through to `return sel_id`, and `sel_id` is also undefined.
`unicode(r_name) in selection` is plain string membership (the
`unicode`/`str` conversion is the identity on the names involved). -/
def pick_repo (selection : List String) (rb_repos : List RBRepo) : Except PyExc Nat :=
  if selection.isEmpty then
    Except.error PyExc.nameError
  else
    match rb_repos.find? (fun r => selection.contains r.name) with
    | some r => Except.ok r.id
    | none => Except.error PyExc.nameError

/-- `validate_repo(repo)`, taking the remote list of the local repository
and the repository list fetched from the server as parameters.
`Except.ok none` models `return False` (no repository selected),
`Except.ok (some r)` models `settings.rb_repo = r; return True`.
The final loop compares `rb_repo['id'] is r_id`; identity on the id fetched
from the very repository `pick_repo` chose coincides with value equality
whenever the server's ids are distinct, which is the regime of the theorems
below. -/
def validate_repo (remotes : List Remote) (rb_repos : List RBRepo) :
    Except PyExc (Option RBRepo) :=
  let repo_names := extractedNames remotes
  if repo_names.isEmpty then
    Except.ok none
  else
    let rb_names := rb_repos.map RBRepo.name
    let selection := repo_names.filter (fun n => rb_names.contains n)
    match pick_repo selection rb_repos with
    | Except.error e => Except.error e
    | Except.ok r_id =>
      match rb_repos.find? (fun r => r.id == r_id) with
      | some r => Except.ok (some r)
      | none => Except.ok none

/-! ### The `RE_UPSTREAM` regex and tracking-branch inference

`RE_UPSTREAM = re.compile(r'refs/remotes/\w+/(.*)')`, used with `.search`.
Python 2's `\w` on a plain pattern is `[A-Za-z0-9_]`. -/

def isWordChar (c : Char) : Bool :=
  c.isAlphanum || c = '_'

def refsRemotesL : List Char := "refs/remotes/".toList

/-- Attempt to match `refs/remotes/\w+/(.*)` at the start of `t`.  The
greedy `\w+` consumes the maximal word-character run; since `/` is not a
word character, backtracking inside the run can never reach the required
`/`, so the match at this position succeeds exactly when the maximal run is
non-empty and followed by `/`.  The greedy `(.*)` captures everything up to
the end of the line. -/
def upstreamAt (t : List Char) : Option (List Char) :=
  if refsRemotesL.isPrefixOf t then
    if (List.takeWhile isWordChar (t.drop 13)).isEmpty then none
    else
      match List.dropWhile isWordChar (t.drop 13) with
      | '/' :: tail => some (tail.takeWhile (fun c => c ≠ '\n'))
      | _ => none
  else none

/-- `RE_UPSTREAM.search`: leftmost matching position. -/
def upstreamSearch : List Char → Option (List Char)
  | [] => none
  | c :: rest =>
    match upstreamAt (c :: rest) with
    | some g => some g
    | none => upstreamSearch rest

/-- A local branch as seen by the loop in `command_upload`:
`upstream_name = none` models pygit2 raising on a branch without a
configured upstream (the exception is swallowed by `except: pass`). -/
structure Branch where
  name : String
  is_head : Bool
  upstream_name : Option String
  deriving Repr

/-- One iteration of the branch loop in `command_upload` (lines 144-152):
the `tracking` accumulator is updated only when the branch is checked out,
has a readable upstream name, and the upstream name matches `RE_UPSTREAM`. -/
def updTracking (tracking : Option String) (b : Branch) : Option String :=
  if b.is_head then
    match b.upstream_name with
    | none => tracking
    | some u =>
      match upstreamSearch u.toList with
      | some g => some g.asString
      | none => tracking
  else tracking

/-- The tracking-branch inference of `command_upload`: fold the branch loop
over all local branches, starting from `tracking = None`.  Total: no failure
mode escapes (the source catches every exception inside the loop). -/
def infer_tracking (branches : List Branch) : Option String :=
  branches.foldl updTracking none

/-! ### Commit-range resolution: `get_commits` -/

/-- A commit, as read by the source: its id (content hash, modelled as a
number), author name and message. -/
structure Commit where
  id : Nat
  author : String
  message : String
  deriving DecidableEq, Repr

/-- The git collaborator.  `revparse` gives the commit a revision string
resolves to (`none` = GIT_ENOTFOUND).  `walk i` gives the sequence of
commits that `repo.walk(i, GIT_SORT_TOPOLOGICAL | GIT_SORT_TIME)` yields,
paired with a flag that is `true` when the iteration ends in a
`pygit2.GitError` instead of normal exhaustion.  `createSucceeds` tells
whether the review-request creation call returns a truthy resource. -/
structure GitEnv where
  revparse : String → Option Commit
  walk : Nat → List Commit × Bool
  branches : List Branch
  createSucceeds : Bool

/-- `repo.revparse_single(spec)`: raises `KeyError` when the revision does
not resolve; never returns a falsy value. -/
def revparse_single (env : GitEnv) (spec : String) : Except PyExc Commit :=
  match env.revparse spec with
  | some c => Except.ok c
  | none => Except.error PyExc.keyError

/-- The collecting loop of `get_commits`: append each walked commit and
break (inclusively) at the first commit whose id equals `eid`.  When the
walk raises `GitError` (`eflag = true`) before the break fires, the
exception handler returns Python `None`, modelled as `none`. -/
def walkRun (cl : List Commit) (eflag : Bool) (eid : Nat) : Option (List Commit) :=
  match cl with
  | [] => if eflag then none else some []
  | c :: rest =>
    if c.id = eid then some [c]
    else (walkRun rest eflag eid).map (fun l => c :: l)

/-- `get_commits(repo, start, end)`.  `Except.ok none` models the
`return None` taken when the walk raises `GitError`;
`Except.ok (some (commits, base))` models the normal
`return (commits, repo.revparse_single(end + "^"))`.  Python's
`if not end: end = start` treats both `None` and the empty string as unset.
The `if not commit_start / commit_end: raise ValueError` guards of the
source are unreachable (see the module comment) and therefore absent. -/
def get_commits (env : GitEnv) (start : String) (endOpt : Option String) :
    Except PyExc (Option (List Commit × Commit)) :=
  match revparse_single env start with
  | Except.error e => Except.error e
  | Except.ok commit_start =>
    let endSpec := match endOpt with
      | none => start
      | some s => if s = "" then start else s
    match revparse_single env endSpec with
    | Except.error e => Except.error e
    | Except.ok commit_end =>
      let w := env.walk commit_start.id
      match walkRun w.1 w.2 commit_end.id with
      | none => Except.ok none
      | some commits =>
        match revparse_single env (endSpec ++ "^") with
        | Except.error e => Except.error e
        | Except.ok base => Except.ok (some (commits, base))

/-! ### Argument evaluation: the commit-range argument of `eval_args` -/

/-- Split `s` at the leftmost occurrence of `sep`, returning the pieces
before and after it, or `none` when `sep` does not occur. -/
def splitOnceL (sep : List Char) : List Char → Option (List Char × List Char)
  | [] => if sep.isPrefixOf ([] : List Char) then some ([], []) else none
  | c :: rest =>
    if sep.isPrefixOf (c :: rest) then some ([], (c :: rest).drop sep.length)
    else (splitOnceL sep rest).map (fun p => (c :: p.1, p.2))

/-- Python's `str.split(sep, maxsplit)` for a non-empty separator:
repeatedly split at the leftmost occurrence, at most `maxsplit` times. -/
def pySplitL (sep : List Char) (s : List Char) : Nat → List (List Char)
  | 0 => [s]
  | m + 1 =>
    match splitOnceL sep s with
    | none => [s]
    | some (a, b) => a :: pySplitL sep b m

/-- The commit-range handling of `eval_args`: `string.split(args.commits,
'..', 2)`, then `commit_start = test[0]; commit_end = test[1]` inside a
`try` whose `except IndexError: pass` keeps the already-assigned start when
`test` has a single element.  An absent or empty (falsy) argument assigns
neither. Result: `(settings.commit_start, settings.commit_end)`. -/
def eval_args_commits (commits : Option String) : Option String × Option String :=
  match commits with
  | none => (none, none)
  | some s =>
    if s = "" then (none, none)
    else
      match pySplitL "..".toList s.toList 2 with
      | [] => (none, none)
      | [a] => (some a.asString, none)
      | a :: b :: _ => (some a.asString, some b.asString)

/-! ### The upload command -/

/-- `message.splitlines()[0]`: the first line of a commit message, or an
`IndexError` when the message is empty (Python 2 `str.splitlines` breaks on
`\n` and `\r`). -/
def firstLine (m : String) : Except PyExc String :=
  match m.toList with
  | [] => Except.error PyExc.indexError
  | l => Except.ok (l.takeWhile (fun c => c ≠ '\n' && c ≠ '\r')).asString

/-- Externally visible effects of `command_upload`, in program order.
Temporary-file writes are local and not recorded. -/
inductive Effect where
  | gitDiffCall (oldId newId : Nat)
  | serverCreateRequest
  | serverUploadDiff
  | serverDraftUpdate
  | browserOpen
  deriving DecidableEq, Repr

/-- Effects that touch the review server. -/
def Effect.isServerOp : Effect → Bool
  | Effect.serverCreateRequest => true
  | Effect.serverUploadDiff => true
  | Effect.serverDraftUpdate => true
  | _ => false

/-- Settings relevant to `command_upload`, as left by `bootstrap`. -/
structure UploadSettings where
  commit_start : Option String
  commit_end : Option String
  dry_run : Bool
  rb_repo_id : Nat

/-- `command_upload(config)`: the effects it performs plus its outcome
(`Except.error e` = the Python exception `e` escapes; `Except.ok b` = the
function returns `b`).  Faithful points: an unset or empty `commit_start`
falls back to `"HEAD"`; `get_commits` returning `None` is unpacked without
a check, raising `TypeError`; `commits[0]` raises `IndexError` on an empty
list before the `git diff` subprocess runs; every review-server operation
sits inside `if not settings.dry_run`. -/
def command_upload (env : GitEnv) (s : UploadSettings) :
    List Effect × Except PyExc Bool :=
  let start := match s.commit_start with
    | none => "HEAD"
    | some x => if x = "" then "HEAD" else x
  let tracking := infer_tracking env.branches
  match get_commits env start s.commit_end with
  | Except.error e => ([], Except.error e)
  | Except.ok none => ([], Except.error PyExc.typeError)
  | Except.ok (some (commits, commit_prev)) =>
    match commits with
    | [] => ([], Except.error PyExc.indexError)
    | c0 :: _ =>
      let e1 := Effect.gitDiffCall commit_prev.id c0.id
      match firstLine c0.message with
      | Except.error e => ([e1], Except.error e)
      | Except.ok _summary =>
        if s.dry_run then
          ([e1], Except.ok true)
        else if env.createSucceeds then
          ([e1, Effect.serverCreateRequest, Effect.serverUploadDiff,
            Effect.serverDraftUpdate] ++
           (if tracking.isSome then [Effect.serverDraftUpdate] else []) ++
           [Effect.serverDraftUpdate, Effect.browserOpen], Except.ok true)
        else
          ([e1, Effect.serverCreateRequest], Except.ok false)

/-! ### Concrete fixtures -/

/-- A root commit with no parent. -/
def rootCommit : Commit := ⟨1, "alice", "Initial commit"⟩

/-- A repository whose head is the parentless `rootCommit`:
`HEAD^` does not resolve. -/
def envRoot : GitEnv :=
  { revparse := fun s => if s = "HEAD" then some rootCommit else none
    walk := fun i => if i = 1 then ([rootCommit], false) else ([], false)
    branches := []
    createSucceeds := true }

def headCommit : Commit := ⟨2, "alice", "Fix bug\n\nDetails here"⟩

/-- A repository with two commits: `headCommit` on top of `rootCommit`. -/
def envTwo : GitEnv :=
  { revparse := fun s =>
      if s = "HEAD" then some headCommit
      else if s = "HEAD^" then some rootCommit
      else none
    walk := fun i => if i = 2 then ([headCommit, rootCommit], false) else ([], false)
    branches := []
    createSucceeds := true }

/-- A repository whose history walk raises `pygit2.GitError` before yielding
any commit (the "probably no commits in repo" case of the source). -/
def envEmptyWalk : GitEnv :=
  { revparse := fun s => if s = "HEAD" then some rootCommit else none
    walk := fun _ => ([], true)
    branches := []
    createSucceeds := true }

/-- A repository in which no revision string resolves. -/
def envNoResolve : GitEnv :=
  { revparse := fun _ => none
    walk := fun _ => ([], false)
    branches := []
    createSucceeds := true }

/-- Default upload settings: no commit-range argument, not a dry run. -/
def defaultSettings : UploadSettings := ⟨none, none, false, 1⟩

/-- Commits for the fixture of claim C9. -/
def c9Head : Commit := ⟨21, "alice", "Feature work"⟩

def c9Mid : Commit := ⟨22, "alice", "Older work"⟩

def c9Stray : Commit := ⟨29, "bob", "Unrelated parentless root"⟩

def c9Dev : Commit := ⟨25, "carol", "Tip of dev"⟩

def c9DevParent : Commit := ⟨26, "carol", "Below dev"⟩

/-- A repository whose `HEAD` history is `c9Head, c9Mid`; `other` resolves
to a parentless root outside that history, `dev` to a commit outside that
history that does have a parent. -/
def envC9 : GitEnv :=
  { revparse := fun s =>
      if s = "HEAD" then some c9Head
      else if s = "HEAD^" then some c9Mid
      else if s = "other" then some c9Stray
      else if s = "dev" then some c9Dev
      else if s = "dev^" then some c9DevParent
      else none
    walk := fun i => if i = 21 then ([c9Head, c9Mid], false) else ([], false)
    branches := []
    createSucceeds := true }

/-- The commit named by the C10 witness argument. -/
def c10Head : Commit := ⟨31, "dana", "Topic commit"⟩

def c10Parent : Commit := ⟨32, "dana", "Base commit"⟩

/-- A repository in which the revision string `abc123` names the head of a
two-commit history. -/
def envC10 : GitEnv :=
  { revparse := fun s =>
      if s = "abc123" then some c10Head
      else if s = "abc123^" then some c10Parent
      else none
    walk := fun i => if i = 31 then ([c10Head], false) else ([], false)
    branches := []
    createSucceeds := true }

/-- The URL shape in the words of the claim: "host[:/]<path>.git — the
organizational host followed by an optional colon and/or slash, a path, and
a .git suffix".  The separator may thus be empty, a colon, a slash, or a
colon-slash; the path is non-empty.  (Definition follows the claim's words,
for comparison with `reNIGitExtract`, which follows the source regex.) -/
def c2ClaimShape (s : List Char) : Prop :=
  ∃ a sep p b, (sep = [] ∨ sep = [':'] ∨ sep = ['/'] ∨ sep = [':', '/']) ∧ p ≠ [] ∧
    s = a ++ hostL ++ sep ++ p ++ dotGitL ++ b

/-- The URL shape actually accepted by `RE_NI_GIT`: the host, an optional
colon, a **mandatory** slash, a non-empty newline-free path, and `.git`,
occurring anywhere in the URL (`re.search`). -/
def niGitShape (s : List Char) : Prop :=
  ∃ a c p b, (c = [] ∨ c = [':']) ∧ p ≠ [] ∧ '\n' ∉ p ∧
    s = a ++ hostL ++ c ++ '/' :: (p ++ dotGitL ++ b)

/-- The URL refuting C2 as stated: a colon with no following slash. -/
def c2Url : String := "git.natinst.com:repo.git"

/-! ### Helper lemmas -/

theorem contains_true_iff {α} [BEq α] [LawfulBEq α] (l : List α) (a : α) :
    l.contains a = true ↔ a ∈ l := by
  simp

theorem find?_append_first {α} (p : α → Bool) (r : α) (post : List α) :
    ∀ pre : List α, (∀ x ∈ pre, p x = false) → p r = true →
      (pre ++ r :: post).find? p = some r
  | [], _, hr => by
    rw [List.nil_append, List.find?_cons_of_pos _ hr]
  | a :: pre, h, hr => by
    rw [List.cons_append, List.find?_cons_of_neg _ (by simp [h a (List.mem_cons_self a pre)])]
    exact find?_append_first p r post pre (fun x hx => h x (List.mem_cons_of_mem a hx)) hr

theorem isEmpty_false_of_mem {α} {l : List α} {a : α} (h : a ∈ l) : l.isEmpty = false := by
  cases l with
  | nil => cases h
  | cons x xs => rfl

/-! ### Claim C1 -/

/-- Claim C1: for every server repository list whose ids are distinct and in
which some repository's name is among the locally-extracted remote
identifiers, `validate_repo` selects exactly the repository occurring
earliest in server-list order among those whose name is in the intersection
(the list is `pre ++ r :: post` with no repository of `pre` matching), and
stores it as the selected repository for the run
(`Except.ok (some r)` models `settings.rb_repo = r; return True`). -/
theorem validate_repo_selects_first_match
    (remotes : List Remote) (pre post : List RBRepo) (r : RBRepo)
    (hnd : ((pre ++ r :: post).map RBRepo.id).Nodup)
    (hr : r.name ∈ extractedNames remotes)
    (hpre : ∀ x ∈ pre, x.name ∉ extractedNames remotes) :
    validate_repo remotes (pre ++ r :: post) = Except.ok (some r) := by
  set rbs := pre ++ r :: post with hrbs
  set sel := (extractedNames remotes).filter (fun n => (rbs.map RBRepo.name).contains n)
    with hselDef
  have hrmem : r.name ∈ sel := by
    rw [hselDef]
    refine List.mem_filter.mpr ⟨hr, ?_⟩
    exact (contains_true_iff _ _).mpr
      (List.mem_map_of_mem RBRepo.name (List.mem_append_right pre (List.mem_cons_self r post)))
  have hsel : sel.contains r.name = true := (contains_true_iff _ _).mpr hrmem
  have hselpre : ∀ x ∈ pre, sel.contains x.name = false := by
    intro x hx
    rw [← Bool.not_eq_true, contains_true_iff]
    intro hmem
    exact hpre x hx (List.mem_filter.mp (hselDef ▸ hmem)).1
  have hpick : pick_repo sel rbs = Except.ok r.id := by
    rw [pick_repo, if_neg (by rw [isEmpty_false_of_mem hrmem]; exact Bool.false_ne_true),
      hrbs, find?_append_first (fun x => sel.contains x.name) r post pre hselpre hsel]
  have hidpre : ∀ x ∈ pre, (x.id == r.id) = false := by
    intro x hx
    have hnotin : r.id ∉ pre.map RBRepo.id := by
      rw [hrbs, List.map_append, List.nodup_append] at hnd
      exact fun hm => hnd.2.2 hm (by simp)
    have : x.id ≠ r.id := fun he => hnotin (he ▸ List.mem_map_of_mem RBRepo.id hx)
    simp [this]
  have hfind2 : rbs.find? (fun x => x.id == r.id) = some r := by
    rw [hrbs]
    exact find?_append_first _ r post pre hidpre (by simp)
  have hne : (extractedNames remotes).isEmpty = false := isEmpty_false_of_mem hr
  rw [validate_repo]
  simp only [← hselDef, ← hrbs]
  rw [hne]
  simp only [Bool.false_eq_true, if_false]
  rw [hpick]
  simp only [hfind2]

/-- Witness for C1: the spec's own scenario — remotes
`{origin: git.natinst.com/teamA.git}` against server repositories
`[{1, teamA}, {2, teamB}]` selects repository 1 (`teamA`). -/
theorem validate_repo_selects_first_match_witness :
    validate_repo [⟨"origin", "git.natinst.com/teamA.git"⟩]
      [⟨1, "teamA", "Git", "/a"⟩, ⟨2, "teamB", "Git", "/b"⟩] =
      Except.ok (some ⟨1, "teamA", "Git", "/a"⟩) :=
  validate_repo_selects_first_match [⟨"origin", "git.natinst.com/teamA.git"⟩]
    [] [⟨2, "teamB", "Git", "/b"⟩] ⟨1, "teamA", "Git", "/a"⟩
    (by decide) (by decide) (by intro x hx; cases hx)

/-! ### Claim C3 -/

/-- Claim C3 (code-bug evidence): with a remote that extracts the identifier
`mine` and a server list that does not contain it, the intersection is
empty, and `validate_repo` raises `NameError` — while building the
"no repository(s) that match" message, `pick_repo` evaluates the undefined
global `server` — instead of reporting the no-match error.  No repository is
selected and the run aborts, but through an unhandled exception. -/
theorem validate_repo_empty_intersection_crashes :
    validate_repo [⟨"origin", "git.natinst.com/mine.git"⟩]
      [⟨1, "other", "Git", "/o"⟩] = Except.error PyExc.nameError := by
  rfl

/-! ### Claim C4 -/

/-- Claim C4 (code-bug evidence): with `start = end = "HEAD"`, a head that
has a parent behaves as claimed — exactly one commit (the head) and the
head's parent as base — but for a parentless head `get_commits` raises
`KeyError` from the unguarded `repo.revparse_single(end + "^")` instead of
returning `None` as its own docstring promises. -/
theorem get_commits_head_range :
    get_commits envTwo "HEAD" (some "HEAD") =
        Except.ok (some ([headCommit], rootCommit)) ∧
      get_commits envRoot "HEAD" (some "HEAD") = Except.error PyExc.keyError := by
  exact ⟨rfl, rfl⟩

/-! ### Claim C5 -/

/-- Claim C5 (code-bug evidence): when the history walk yields no commits
(`pygit2.GitError`, "probably no commits in repo"), `get_commits` duly
returns `None`, but `command_upload` unpacks the result without a check:
`(commits, commit_prev) = get_commits(...)` raises `TypeError`.  The run
crashes before any effect is performed — in particular the review server is
never contacted — instead of returning success. -/
theorem command_upload_empty_history_crashes :
    command_upload envEmptyWalk defaultSettings =
      ([], Except.error PyExc.typeError) := by
  rfl

/-! ### Claim C6 -/

/-- Claim C6 (code-bug evidence): a `start` that fails to resolve makes
`get_commits` raise `KeyError` (from `pygit2.Repository.revparse_single`)
rather than the `ValueError` range error of its docstring — the
`if not commit_start: raise ValueError` guard is dead code.  The exception
escapes `command_upload` before any effect, so no partial submission
occurs, but the failure is an unhandled crash, not a signalled range
error. -/
theorem get_commits_unresolvable_start_keyerror :
    get_commits envNoResolve "bogus" none = Except.error PyExc.keyError ∧
      command_upload envNoResolve ⟨some "bogus", none, false, 1⟩ =
        ([], Except.error PyExc.keyError) := by
  exact ⟨rfl, rfl⟩

/-! ### Claim C9 -/

/-- If the end commit's id never occurs in the walked sequence, the
collecting loop's break never fires and every walked commit is collected. -/
theorem walkRun_end_not_found (eid : Nat) :
    ∀ l : List Commit, (∀ c ∈ l, c.id ≠ eid) → walkRun l false eid = some l
  | [], _ => rfl
  | c :: rest, h => by
    rw [walkRun, if_neg (h c (List.mem_cons_self c rest)),
      walkRun_end_not_found eid rest (fun x hx => h x (List.mem_cons_of_mem c hx))]
    rfl

/-- Counterexample for C9 as stated: `end = "other"` resolves to a commit
that is never encountered in the walk from `HEAD` (first conjunct), yet
`get_commits` does not return the walked history — it raises `KeyError`
from the unguarded `repo.revparse_single(end + "^")`, because the stray
end commit has no parent. -/
theorem get_commits_unreached_end_counterexample :
    ((envC9.walk 21).1.all (fun c => c.id != 29)) = true ∧
      get_commits envC9 "HEAD" (some "other") = Except.error PyExc.keyError :=
  ⟨rfl, rfl⟩

/-- Claim C9 as amended: when the resolved end commit is never encountered
during the walk from start AND `end + "^"` resolves (the end commit has a
parent), `get_commits` returns the entire walked history from start — the
loop's stop condition only fires on encountering the end commit — together
with that parent; no error is signalled. -/
theorem get_commits_unreached_end_returns_all
    (env : GitEnv) (start endSpec : String) (cs ce p : Commit) (l : List Commit)
    (hes : endSpec ≠ "")
    (hs : env.revparse start = some cs)
    (he : env.revparse endSpec = some ce)
    (hw : env.walk cs.id = (l, false))
    (hnot : ∀ c ∈ l, c.id ≠ ce.id)
    (hp : env.revparse (endSpec ++ "^") = some p) :
    get_commits env start (some endSpec) = Except.ok (some (l, p)) := by
  unfold get_commits revparse_single
  rw [hs]
  simp only [hes, if_false]
  simp only [he, hw]
  rw [walkRun_end_not_found ce.id l hnot]
  simp only [hp]

/-- Witness for the amended C9: in `envC9`, walking from `HEAD` with
`end = "dev"` (unreached, but with a parent) yields the whole history
`[c9Head, c9Mid]` and `dev`'s parent as base. -/
theorem get_commits_unreached_end_returns_all_witness :
    get_commits envC9 "HEAD" (some "dev") =
      Except.ok (some ([c9Head, c9Mid], c9DevParent)) :=
  get_commits_unreached_end_returns_all envC9 "HEAD" "dev" c9Head c9Dev c9DevParent
    [c9Head, c9Mid] (by decide) rfl rfl rfl (by decide) rfl

/-! ### Claim C10 -/

/-- Unfolding equation for `walkRun` on a non-empty walk. -/
theorem walkRun_cons (c : Commit) (rest : List Commit) (eflag : Bool) (eid : Nat) :
    walkRun (c :: rest) eflag eid =
      if c.id = eid then some [c]
      else (walkRun rest eflag eid).map (fun l => c :: l) := rfl

theorem asString_toList (s : String) : s.toList.asString = s := by
  cases s with
  | mk data => rfl

/-- `splitOnceL` finds nothing exactly when the separator does not occur. -/
theorem splitOnce_eq_none_of_not_infix (sep : List Char) :
    ∀ l : List Char, ¬ sep <:+: l → splitOnceL sep l = none
  | [], h => by
    rw [splitOnceL, if_neg]
    intro hpre
    exact h ((List.isPrefixOf_iff_prefix.mp hpre).isInfix)
  | c :: rest, h => by
    rw [splitOnceL, if_neg (fun hpre => h ((List.isPrefixOf_iff_prefix.mp hpre).isInfix)),
      splitOnce_eq_none_of_not_infix sep rest (fun hi => h (hi.trans (List.suffix_cons c rest).isInfix))]
    rfl

/-- Claim C10: an upload commit-range argument without a `..` separator
becomes the range start wholesale while the range end stays unset; it is
not reported as an error, and range resolution then defaults the end to the
start, producing a single-commit range (with the start commit's parent as
base). -/
theorem eval_args_no_separator_single_commit
    (s : String) (env : GitEnv) (c p : Commit) (rest : List Commit) (eflag : Bool)
    (hne : s ≠ "")
    (hnosep : ¬ "..".toList <:+: s.toList)
    (hrv : env.revparse s = some c)
    (hw : env.walk c.id = (c :: rest, eflag))
    (hp : env.revparse (s ++ "^") = some p) :
    eval_args_commits (some s) = (some s, none) ∧
      get_commits env s (eval_args_commits (some s)).2 =
        Except.ok (some ([c], p)) := by
  have h1 : eval_args_commits (some s) = (some s, none) := by
    rw [eval_args_commits, if_neg hne, pySplitL,
      splitOnce_eq_none_of_not_infix "..".toList s.toList hnosep]
    simp only [asString_toList]
  refine ⟨h1, ?_⟩
  rw [h1]
  unfold get_commits revparse_single
  simp only [hrv, hw]
  rw [walkRun_cons, if_pos rfl]
  simp only [hp]

/-- Witness for C10: the argument `"abc123"` (no `..`) becomes the start,
the end stays unset, and resolution returns the single head commit with its
parent as base. -/
theorem eval_args_no_separator_single_commit_witness :
    eval_args_commits (some "abc123") = (some "abc123", none) ∧
      get_commits envC10 "abc123" (eval_args_commits (some "abc123")).2 =
        Except.ok (some ([c10Head], c10Parent)) :=
  eval_args_no_separator_single_commit "abc123" envC10 c10Head c10Parent [] false
    (by decide) (by decide) rfl rfl rfl

/-! ### Claim C8 -/

/-- Claim C8: with dry-run enabled, `command_upload` performs no
review-server operation — no review-request creation, no draft update, no
diff upload — whatever the repository contents and remaining settings; this
holds on every path, including the crashing ones. -/
theorem upload_dry_run_no_server_ops (env : GitEnv) (s : UploadSettings)
    (h : s.dry_run = true) :
    ((command_upload env s).1.all (fun e => !e.isServerOp)) = true := by
  simp only [command_upload]
  split
  · rfl
  · rfl
  · split
    · rfl
    · split
      · rfl
      · rw [h]
        simp [Effect.isServerOp]

/-- Witness for C8: a dry run over the two-commit repository performs only
the local `git diff` subprocess call. -/
theorem upload_dry_run_no_server_ops_witness :
    ((command_upload envTwo ⟨none, none, true, 1⟩).1.all (fun e => !e.isServerOp)) = true :=
  upload_dry_run_no_server_ops envTwo ⟨none, none, true, 1⟩ rfl

/-! ### Claim C7 -/

theorem takeWhile_append_stop (p : Char → Bool) (b : List Char) (c : Char)
    (hc : p c = false) :
    ∀ a : List Char, (∀ x ∈ a, p x = true) → (a ++ c :: b).takeWhile p = a
  | [], _ => by simp [List.takeWhile, hc]
  | x :: xs, ha => by
    rw [List.cons_append, List.takeWhile_cons_of_pos (ha x (List.mem_cons_self x xs)),
      takeWhile_append_stop p b c hc xs (fun y hy => ha y (List.mem_cons_of_mem x hy))]

theorem dropWhile_append_stop (p : Char → Bool) (b : List Char) (c : Char)
    (hc : p c = false) :
    ∀ a : List Char, (∀ x ∈ a, p x = true) → (a ++ c :: b).dropWhile p = c :: b
  | [], _ => by simp [List.dropWhile, hc]
  | x :: xs, ha => by
    rw [List.cons_append, List.dropWhile_cons_of_pos (ha x (List.mem_cons_self x xs)),
      dropWhile_append_stop p b c hc xs (fun y hy => ha y (List.mem_cons_of_mem x hy))]

/-- A successful match at the first position wins the search. -/
theorem upstreamSearch_of_at (t g : List Char) (h : upstreamAt t = some g) :
    upstreamSearch t = some g := by
  cases t with
  | nil => exact absurd h (by rw [upstreamAt]; simp [refsRemotesL, List.isPrefixOf])
  | cons c rest => rw [upstreamSearch, h]

/-- `RE_UPSTREAM` on a well-formed upstream reference
`refs/remotes/<remote>/<branch>`: the group is exactly the branch part,
provided the remote name is a non-empty word-character run and the branch
part has no newline. -/
theorem upstreamSearch_wellformed (r nb : String)
    (hr : r ≠ "") (hw : r.toList.all isWordChar = true) (hnb : '\n' ∉ nb.toList) :
    upstreamSearch ("refs/remotes/" ++ r ++ "/" ++ nb).toList = some nb.toList := by
  have hdata : ("refs/remotes/" ++ r ++ "/" ++ nb).toList =
      refsRemotesL ++ (r.toList ++ '/' :: nb.toList) := by
    simp [refsRemotesL]
  have hrl : r.toList ≠ [] := by
    cases r with
    | mk data =>
      cases data with
      | nil => exact absurd rfl hr
      | cons a l => simp [String.toList]
  have hword : ∀ x ∈ r.toList, isWordChar x = true := List.all_eq_true.mp hw
  have hslash : isWordChar '/' = false := by decide
  have hdrop : (refsRemotesL ++ (r.toList ++ '/' :: nb.toList)).drop 13 =
      r.toList ++ '/' :: nb.toList := by
    have h := List.drop_left refsRemotesL (r.toList ++ '/' :: nb.toList)
    rwa [show refsRemotesL.length = 13 by decide] at h
  have hat : upstreamAt (refsRemotesL ++ (r.toList ++ '/' :: nb.toList)) =
      some nb.toList := by
    rw [upstreamAt, if_pos (List.isPrefixOf_iff_prefix.mpr (List.prefix_append _ _)), hdrop]
    rw [takeWhile_append_stop isWordChar nb.toList '/' hslash r.toList hword]
    rw [dropWhile_append_stop isWordChar nb.toList '/' hslash r.toList hword]
    rw [if_neg (by simp only [List.isEmpty_iff]; exact hrl)]
    have htw : nb.toList.takeWhile (fun c => c ≠ '\n') = nb.toList := by
      rw [List.takeWhile_eq_self_iff]
      intro x hx
      simp only [decide_eq_true_eq]
      exact fun he => hnb (he ▸ hx)
    show some (nb.toList.takeWhile (fun c => c ≠ '\n')) = some nb.toList
    exact congrArg some htw
  rw [hdata]
  exact upstreamSearch_of_at _ _ hat

/-- A branch on which the loop body leaves the `tracking` accumulator
unchanged: not checked out, or upstream unreadable, or upstream not
matching `RE_UPSTREAM`. -/
theorem updTracking_id_of (b : Branch)
    (hb : b.is_head = true →
      b.upstream_name = none ∨
        ∃ u, b.upstream_name = some u ∧ upstreamSearch u.toList = none) :
    ∀ acc, updTracking acc b = acc := by
  intro acc
  cases hh : b.is_head with
  | false => simp [updTracking, hh]
  | true =>
    rcases hb hh with hn | ⟨u, hu, hs⟩
    · simp [updTracking, hh, hn]
    · simp [updTracking, hh, hu, show upstreamSearch u.data = none from hs]

theorem foldl_updTracking_id :
    ∀ bs : List Branch, (∀ b ∈ bs, ∀ acc, updTracking acc b = acc) →
      ∀ acc, bs.foldl updTracking acc = acc
  | [], _, acc => rfl
  | b :: bs, h, acc => by
    rw [List.foldl_cons, h b (List.mem_cons_self b bs)]
    exact foldl_updTracking_id bs (fun x hx => h x (List.mem_cons_of_mem b hx)) acc

/-- Claim C7: tracking-branch inference is total (it is a plain function —
no failure escapes), returns `none` whenever every checked-out branch has no
readable upstream or an upstream not of the `refs/remotes/<remote>/...`
form (in particular when no branch is checked out), and returns the short
name obtained by stripping the `refs/remotes/<remote>/` prefix when the
checked-out branch has a well-formed upstream. -/
theorem tracking_inference_correct :
    (∀ bs : List Branch,
      (∀ b ∈ bs, b.is_head = true →
        b.upstream_name = none ∨
          ∃ u, b.upstream_name = some u ∧ upstreamSearch u.toList = none) →
      infer_tracking bs = none)
    ∧ (∀ (pre post : List Branch) (b : Branch) (r nb : String),
      (∀ x ∈ pre, x.is_head = false) → (∀ x ∈ post, x.is_head = false) →
      b.is_head = true →
      b.upstream_name = some ("refs/remotes/" ++ r ++ "/" ++ nb) →
      r ≠ "" → r.toList.all isWordChar = true → '\n' ∉ nb.toList →
      infer_tracking (pre ++ b :: post) = some nb) := by
  constructor
  · intro bs h
    exact foldl_updTracking_id bs (fun b hb => updTracking_id_of b (h b hb)) none
  · intro pre post b r nb hpre hpost hhead hup hr hw hnb
    rw [infer_tracking, List.foldl_append,
      foldl_updTracking_id pre
        (fun x hx acc => by simp [updTracking, hpre x hx]) none,
      List.foldl_cons]
    have hupd : updTracking none b = some nb := by
      simp only [updTracking, hhead, if_true]
      rw [hup]
      simp only [upstreamSearch_wellformed r nb hr hw hnb]
      rw [asString_toList]
    rw [hupd]
    exact foldl_updTracking_id post
      (fun x hx acc => by simp [updTracking, hpost x hx]) (some nb)

/-- Witness for C7: the spec's example — a checked-out branch tracking
`refs/remotes/origin/develop` infers the short name `develop`. -/
theorem tracking_inference_correct_witness :
    infer_tracking [⟨"dev", true, some "refs/remotes/origin/develop"⟩] = some "develop" :=
  tracking_inference_correct.2 [] [] ⟨"dev", true, some "refs/remotes/origin/develop"⟩
    "origin" "develop" (by simp) (by simp) rfl rfl (by decide) (by decide) (by decide)

/-! ### Claim C2 -/

theorem tailExtractAux_isSome_iff (t : List Char) :
    ∀ k : Nat, (tailExtractAux k t).isSome = true ↔
      ∃ j, 1 ≤ j ∧ j ≤ k ∧
        ((t.take j).all (fun c => c ≠ '\n') && dotGitL.isPrefixOf (t.drop j)) = true
  | 0 => by
    simp only [tailExtractAux, Option.isSome_none, Bool.false_eq_true, false_iff]
    rintro ⟨j, h1, h2, _⟩
    omega
  | k + 1 => by
    rw [tailExtractAux]
    by_cases h : ((t.take (k + 1)).all (fun c => c ≠ '\n') &&
        dotGitL.isPrefixOf (t.drop (k + 1))) = true
    · rw [if_pos h]
      simp only [Option.isSome_some, true_iff]
      exact ⟨k + 1, by omega, Nat.le_refl _, h⟩
    · rw [if_neg h, tailExtractAux_isSome_iff t k]
      constructor
      · rintro ⟨j, h1, h2, h3⟩
        exact ⟨j, h1, Nat.le_succ_of_le h2, h3⟩
      · rintro ⟨j, h1, h2, h3⟩
        refine ⟨j, h1, ?_, h3⟩
        rcases Nat.eq_or_lt_of_le h2 with he | hl
        · exact absurd (he ▸ h3) h
        · omega

theorem tailExtract_isSome_iff (t : List Char) :
    (tailExtract t).isSome = true ↔
      ∃ p b, p ≠ [] ∧ '\n' ∉ p ∧ t = p ++ dotGitL ++ b := by
  rw [tailExtract, tailExtractAux_isSome_iff]
  constructor
  · rintro ⟨j, h1, _h2, h3⟩
    rw [Bool.and_eq_true] at h3
    obtain ⟨hall, hpre⟩ := h3
    obtain ⟨b, hb⟩ := List.isPrefixOf_iff_prefix.mp hpre
    refine ⟨t.take j, b, ?_, ?_, ?_⟩
    · intro hnil
      rcases List.take_eq_nil_iff.mp hnil with h0 | hnil2
      · omega
      · rw [hnil2] at hpre
        rw [List.drop_nil] at hpre
        exact absurd hpre (by decide)
    · intro hm
      have := List.all_eq_true.mp hall _ hm
      simp at this
    · conv_lhs => rw [← List.take_append_drop j t]
      rw [← hb, List.append_assoc]
  · rintro ⟨p, b, hp, hnl, ht⟩
    refine ⟨p.length, List.length_pos.mpr hp, ?_, ?_⟩
    · rw [ht, List.length_append, List.length_append]
      omega
    · rw [Bool.and_eq_true]
      have hassoc : t = p ++ (dotGitL ++ b) := by rw [ht, List.append_assoc]
      constructor
      · rw [hassoc, List.take_left]
        rw [List.all_eq_true]
        intro c hc
        simp only [decide_eq_true_eq]
        exact fun he => hnl (he ▸ hc)
      · rw [hassoc, List.drop_left]
        exact List.isPrefixOf_iff_prefix.mpr (List.prefix_append _ _)

theorem afterHost_colon (rest : List Char) :
    afterHost (':' :: '/' :: rest) = tailExtract rest := rfl

theorem afterHost_slash (rest : List Char) :
    afterHost ('/' :: rest) = tailExtract rest := rfl

theorem afterHost_isSome_iff (t : List Char) :
    (afterHost t).isSome = true ↔
      ∃ c p b, (c = [] ∨ c = [':']) ∧ p ≠ [] ∧ '\n' ∉ p ∧
        t = c ++ '/' :: (p ++ dotGitL ++ b) := by
  constructor
  · intro h
    unfold afterHost at h
    split at h
    · obtain ⟨p, b, hp, hnl, hrest⟩ := (tailExtract_isSome_iff _).mp h
      exact ⟨[':'], p, b, Or.inr rfl, hp, hnl, by rw [hrest]; rfl⟩
    · obtain ⟨p, b, hp, hnl, hrest⟩ := (tailExtract_isSome_iff _).mp h
      exact ⟨[], p, b, Or.inl rfl, hp, hnl, by rw [hrest]; rfl⟩
    · simp at h
  · rintro ⟨c, p, b, hc | hc, hp, hnl, ht⟩
    · subst hc
      rw [List.nil_append] at ht
      rw [ht, afterHost_slash, tailExtract_isSome_iff]
      exact ⟨p, b, hp, hnl, rfl⟩
    · subst hc
      rw [List.cons_append, List.nil_append] at ht
      rw [ht, afterHost_colon, tailExtract_isSome_iff]
      exact ⟨p, b, hp, hnl, rfl⟩

theorem searchExtract_isSome_iff :
    ∀ s : List Char, (searchExtract s).isSome = true ↔
      ∃ a t, s = a ++ t ∧ hostL.isPrefixOf t = true ∧
        (afterHost (t.drop 15)).isSome = true
  | [] => by
    simp only [searchExtract, Option.isSome_none, Bool.false_eq_true, false_iff]
    rintro ⟨a, t, hs, hpre, _⟩
    obtain ⟨ha, ht⟩ := List.append_eq_nil.mp hs.symm
    rw [ht] at hpre
    exact absurd hpre (by decide)
  | c :: rest => by
    by_cases hpre : hostL.isPrefixOf (c :: rest) = true
    · by_cases hafter : (afterHost ((c :: rest).drop 15)).isSome = true
      · obtain ⟨g, hg⟩ := Option.isSome_iff_exists.mp hafter
        have hlhs : searchExtract (c :: rest) = some g := by
          rw [searchExtract, if_pos hpre, hg]
        rw [hlhs]
        simp only [Option.isSome_some, true_iff]
        exact ⟨[], c :: rest, rfl, hpre, hafter⟩
      · have hnone : afterHost ((c :: rest).drop 15) = none :=
          Option.not_isSome_iff_eq_none.mp hafter
        have hlhs : searchExtract (c :: rest) = searchExtract rest := by
          rw [searchExtract, if_pos hpre, hnone]
        rw [hlhs, searchExtract_isSome_iff rest]
        constructor
        · rintro ⟨a, t, hs, hp, ha⟩
          exact ⟨c :: a, t, by rw [List.cons_append, hs], hp, ha⟩
        · rintro ⟨a, t, hs, hp, ha⟩
          cases a with
          | nil =>
            rw [List.nil_append] at hs
            rw [← hs] at ha
            exact absurd ha hafter
          | cons a0 a1 =>
            rw [List.cons_append, List.cons.injEq] at hs
            exact ⟨a1, t, hs.2, hp, ha⟩
    · have hlhs : searchExtract (c :: rest) = searchExtract rest := by
        rw [searchExtract, if_neg hpre]
      rw [hlhs, searchExtract_isSome_iff rest]
      constructor
      · rintro ⟨a, t, hs, hp, ha⟩
        exact ⟨c :: a, t, by rw [List.cons_append, hs], hp, ha⟩
      · rintro ⟨a, t, hs, hp, ha⟩
        cases a with
        | nil =>
          rw [List.nil_append] at hs
          rw [← hs] at hp
          exact absurd hp hpre
        | cons a0 a1 =>
          rw [List.cons_append, List.cons.injEq] at hs
          exact ⟨a1, t, hs.2, hp, ha⟩

/-- Claim C2 as amended: `RE_NI_GIT` extracts a repository identifier from
a URL if and only if the URL contains the organizational host followed by
an optional colon, then a **mandatory** slash, then a non-empty
newline-free path, then the `.git` suffix.  (A colon alone, without a
following slash, does not match.) -/
theorem reNIGitExtract_isSome_iff (url : String) :
    (reNIGitExtract url).isSome = true ↔ niGitShape url.toList := by
  rw [reNIGitExtract, Option.isSome_map', searchExtract_isSome_iff, niGitShape]
  constructor
  · rintro ⟨a, t, hs, hp, ha⟩
    obtain ⟨t', ht'⟩ := List.isPrefixOf_iff_prefix.mp hp
    have hdrop : t.drop 15 = t' := by
      have h := List.drop_left hostL t'
      rw [show hostL.length = 15 by decide] at h
      rw [← ht', h]
    rw [hdrop] at ha
    obtain ⟨c, p, b, hc, hp2, hnl, ht2⟩ := (afterHost_isSome_iff t').mp ha
    refine ⟨a, c, p, b, hc, hp2, hnl, ?_⟩
    rw [hs, ← ht', ht2]
    simp [List.append_assoc]
  · rintro ⟨a, c, p, b, hc, hp2, hnl, hs⟩
    refine ⟨a, hostL ++ (c ++ '/' :: (p ++ dotGitL ++ b)), ?_, ?_, ?_⟩
    · rw [hs]
      simp [List.append_assoc]
    · exact List.isPrefixOf_iff_prefix.mpr (List.prefix_append _ _)
    · have hdrop : (hostL ++ (c ++ '/' :: (p ++ dotGitL ++ b))).drop 15 =
          c ++ '/' :: (p ++ dotGitL ++ b) := by
        have h := List.drop_left hostL (c ++ '/' :: (p ++ dotGitL ++ b))
        rwa [show hostL.length = 15 by decide] at h
      rw [hdrop]
      exact (afterHost_isSome_iff _).mpr ⟨c, p, b, hc, hp2, hnl, rfl⟩

/-- Counterexample for C2 as stated: `git.natinst.com:repo.git` has the
claimed shape `host[:/]<path>.git` (host, colon, path `repo`, `.git`), yet
the matcher extracts nothing from it — the regex requires a slash after the
optional colon — so "extracts if and only if the URL has the shape
host[:/]<path>.git" is false at this URL. -/
theorem reNIGit_claim_shape_counterexample :
    ¬ (((reNIGitExtract c2Url).isSome = true) ↔ c2ClaimShape c2Url.toList) := by
  intro h
  have h1 := h.mpr ⟨[], [':'], "repo".toList, [], Or.inr (Or.inl rfl), by decide, by decide⟩
  exact absurd h1 (by decide)
